import Mathlib

/-!
Verification of the `goahead` permission library (`src/permissions.go`).

The Go file contains three concatenated revisions; the first revision (the
one that also carries the binary codec, lines 1-301) is the current state of
the package and is the one embedded here.  The embedding is shallow:

* `BitSet` models the word-packed bit vector of the external dependency
  `github.com/willf/bitset` at the level of its observable word content: the
  field `elems` is the set of bit positions stored in the backing words and
  `length` is the vector's logical length.  Every bitset operation the Go
  package calls (`Test`, `Set`, `NextSet` iteration, `InPlaceUnion`,
  `InPlaceIntersection`, `Len`, binary (un)marshalling) is modelled from that
  library's implementation.
* `PermissionSet` mirrors the Go struct: an `ID`, a bit vector and a
  `children` map.  A Go map has three observably different states used by the
  package (`nil`, allocated-but-empty, non-empty), so `ChildMap` has the
  constructors `unalloc` (Go `nil` map), `empty` (allocated, no entries) and
  `cons`.  Go map iteration order is unspecified; the list order of `cons`
  entries is the chosen linearization.
* Go's in-place mutation is modelled by explicit state passing: an operation
  that mutates its receiver returns the new receiver (for `Child`, which
  returns an interior pointer, the model returns the child together with the
  updated parent).
* Machine integers are `Nat` with explicit `% 2 ^ 64` at the one place where
  a `uint64` computation can wrap (varint accumulation).
* Byte slices are `List Nat` whose entries are byte values; a fallible
  decode returns `Except GoErr`.  A Go runtime panic (slice bounds out of
  range) is modelled as the distinguished error `GoErr.panicRange`; the model
  takes a slice's capacity to equal its length, which is the case for the
  top-level buffers the claims are about.
-/

/-- Model of `bitset.BitSet`: `length` is the logical bit-vector length, and
`elems` is the set of bit positions held in the backing `[]uint64` words.
All reachable bitsets keep their word bits below `length` (`BitSet.Wf`). -/
structure BitSet where
  length : Nat
  elems : Finset Nat
deriving DecidableEq

/-- `BitSet.Test`: `if i >= b.length { return false }` then test the word bit. -/
def BitSet.Test (b : BitSet) (i : Nat) : Bool :=
  decide (i < b.length) && decide (i ∈ b.elems)

/-- `BitSet.Set`: `extendSetMaybe(i)` grows `length` to `i+1` when needed,
then ORs the bit into its word. -/
def BitSet.set (b : BitSet) (i : Nat) : BitSet :=
  ⟨max b.length (i + 1), insert i b.elems⟩

/-- `BitSet.InPlaceUnion`: word-wise OR of the two backing arrays, with the
receiver's length extended to the larger of the two lengths. -/
def BitSet.inPlaceUnion (b c : BitSet) : BitSet :=
  ⟨max b.length c.length, b.elems ∪ c.elems⟩

/-- `BitSet.InPlaceIntersection`: word-wise AND up to the shorter word count,
zeroing of the receiver's remaining words, and extension of the receiver's
length to the larger of the two lengths. -/
def BitSet.inPlaceIntersection (b c : BitSet) : BitSet :=
  ⟨max b.length c.length, b.elems ∩ c.elems⟩

/-- The ascending enumeration of set bits produced by the Go loop
`for i, e := bits.NextSet(0); e; i, e = bits.NextSet(i + 1)`. -/
def BitSet.sortedElems (b : BitSet) : List Nat :=
  b.elems.sort (· ≤ ·)

/-- Well-formedness maintained by every `bitset.BitSet` operation: no word
bit at or above the logical length. -/
abbrev BitSet.Wf (b : BitSet) : Prop :=
  ∀ i ∈ b.elems, i < b.length

mutual
/-- The Go struct `PermissionSet {ID uint64; bits bitset.BitSet;
children map[uint]*PermissionSet}`. -/
inductive PermissionSet : Type where
  | mk (ID : Nat) (bits : BitSet) (children : ChildMap)
/-- The state of the Go map `children`: `unalloc` is the `nil` map, `empty`
an allocated map with no entries. -/
inductive ChildMap : Type where
  | unalloc
  | empty
  | cons (idx : Nat) (child : PermissionSet) (rest : ChildMap)
end

def PermissionSet.ID : PermissionSet → Nat
  | .mk id _ _ => id

def PermissionSet.bits : PermissionSet → BitSet
  | .mk _ b _ => b

def PermissionSet.children : PermissionSet → ChildMap
  | .mk _ _ m => m

/-- `p.children == nil`. -/
def ChildMap.isNil : ChildMap → Bool
  | .unalloc => true
  | _ => false

/-- Go map lookup `m[i]` (a lookup on a `nil` map just reports absence). -/
def childMapLookup : ChildMap → Nat → Option PermissionSet
  | .unalloc, _ => none
  | .empty, _ => none
  | .cons j c rest, i => if i = j then some c else childMapLookup rest i

/-- Go map assignment `m[i] = c` (replaces an existing entry).  The package
only assigns into allocated maps; the `unalloc` case is included for
totality and behaves like assignment into a fresh map. -/
def childMapAssign : ChildMap → Nat → PermissionSet → ChildMap
  | .unalloc, i, c => .cons i c .empty
  | .empty, i, c => .cons i c .empty
  | .cons j d rest, i, c =>
      if i = j then .cons j c rest else .cons j d (childMapAssign rest i c)

/-- The keys present in a `children` map. -/
def childKeys : ChildMap → List Nat
  | .unalloc => []
  | .empty => []
  | .cons i _ rest => i :: childKeys rest

/-- `new(PermissionSet)`: zero ID, zero-value bitset, `nil` children map. -/
def emptyPS : PermissionSet :=
  .mk 0 ⟨0, ∅⟩ ChildMap.unalloc

/-- Replace the receiver's bit vector (models in-place mutation of `p.bits`). -/
def withBits : PermissionSet → BitSet → PermissionSet
  | .mk id _ m, b => .mk id b m

/-- Store `c` as the child at `i` (models mutation through the pointer
returned by `Child`). -/
def setChild : PermissionSet → Nat → PermissionSet → PermissionSet
  | .mk id b m, i, c => .mk id b (childMapAssign m i c)

/-- `Has`: `p.bits.Test(index)`. -/
def PermissionSet.Has (p : PermissionSet) (index : Nat) : Bool :=
  p.bits.Test index

/-- `Set` for a single index (the package's variadic `Set` applied to one
index, which is how `Union` uses it). -/
def PermissionSet.Set (p : PermissionSet) (i : Nat) : PermissionSet :=
  withBits p (p.bits.set i)

/-- `Len`: `p.bits.Len()`. -/
def PermissionSet.Len (p : PermissionSet) : Nat :=
  p.bits.length

/-- `if p.children == nil { p.children = make(map[uint]*PermissionSet, 1) }`. -/
def allocMap : ChildMap → ChildMap
  | .unalloc => .empty
  | m => m

/-- `Child`: allocates the map if it is `nil`, returns the existing child or
stores and returns a fresh empty one.  The Go method returns a pointer into
the receiver, so the model returns the child together with the updated
receiver. -/
def PermissionSet.Child : PermissionSet → Nat → PermissionSet × PermissionSet
  | .mk id b m, index =>
      match childMapLookup (allocMap m) index with
      | some c => (c, .mk id b (allocMap m))
      | none => (emptyPS, .mk id b (childMapAssign (allocMap m) index emptyPS))

/-- The loop body of `Walk` (first revision).  `root` is the receiver `p`:
the source tests `p.children == nil` (not `set.children == nil`) at every
level. -/
def walkGo (root : PermissionSet) : PermissionSet → List Nat → Bool
  | _, [] => true
  | set, i :: rest =>
      if set.bits.Test i then
        if root.children.isNil then true
        else
          match childMapLookup set.children i with
          | some next => walkGo root next rest
          | none => true
      else false

/-- `Walk` (first revision): follows a path of bit indices through nested
child sets; an exhausted index list returns `true`. -/
def PermissionSet.Walk (p : PermissionSet) (indices : List Nat) : Bool :=
  walkGo p p indices

-- ### Accessor lemmas

@[simp] theorem withBits_bits (p : PermissionSet) (b : BitSet) :
    (withBits p b).bits = b := by
  cases p <;> rfl

@[simp] theorem withBits_ID (p : PermissionSet) (b : BitSet) :
    (withBits p b).ID = p.ID := by
  cases p <;> rfl

@[simp] theorem setChild_bits (p c : PermissionSet) (i : Nat) :
    (setChild p i c).bits = p.bits := by
  cases p <;> rfl

@[simp] theorem setChild_children (p c : PermissionSet) (i : Nat) :
    (setChild p i c).children = childMapAssign p.children i c := by
  cases p <;> rfl

@[simp] theorem pset_bits (p : PermissionSet) (i : Nat) :
    (p.Set i).bits = p.bits.set i := by
  cases p <;> rfl

theorem Child_snd_bits (p : PermissionSet) (i : Nat) :
    (p.Child i).2.bits = p.bits := by
  cases p with
  | mk id b m =>
      simp only [PermissionSet.Child]
      split <;> rfl

/-- C2: `Walk([])` is true, and `Walk([i])` agrees with `Has(i)` whenever no
child exists at `i`. -/
theorem walk_empty_and_single_no_child (p : PermissionSet) (i : Nat) :
    p.Walk [] = true ∧
      (childMapLookup p.children i = none → p.Walk [i] = p.Has i) := by
  refine ⟨rfl, fun h => ?_⟩
  simp only [PermissionSet.Walk, walkGo, PermissionSet.Has]
  cases hT : p.bits.Test i
  · rfl
  · cases hN : p.children.isNil
    · simp [h]
    · simp

/-- C2 witness: a concrete set with bit 0 set and no children. -/
theorem walk_empty_and_single_no_child_witness :
    childMapLookup (PermissionSet.mk 0 ⟨1, {0}⟩ ChildMap.unalloc).children 0 = none ∧
      (PermissionSet.mk 0 ⟨1, {0}⟩ ChildMap.unalloc).Walk [] = true ∧
      (PermissionSet.mk 0 ⟨1, {0}⟩ ChildMap.unalloc).Walk [0] =
        (PermissionSet.mk 0 ⟨1, {0}⟩ ChildMap.unalloc).Has 0 :=
  ⟨rfl, (walk_empty_and_single_no_child _ 0).1,
    (walk_empty_and_single_no_child _ 0).2 rfl⟩

/-- The concrete tree of the C3 scenario: root bits {3,5}, child at 5 with
bits {2} (lengths are the high-water marks `Set` would leave behind). -/
def walkTree : PermissionSet :=
  .mk 0 ⟨6, {3, 5}⟩ (ChildMap.cons 5 (.mk 0 ⟨3, {2}⟩ ChildMap.unalloc) ChildMap.empty)

/-- C3: on the root-{3,5} / child-at-5-{2} tree, `Walk([5,2])` is true while
`Walk([5,9])` and `Walk([4])` are false. -/
theorem walk_scenario_eval :
    walkTree.Walk [5, 2] = true ∧
      walkTree.Walk [5, 9] = false ∧
      walkTree.Walk [4] = false := by
  refine ⟨?_, ?_, ?_⟩ <;> decide

-- ### Tree depth, the termination measure for the recursive set algebra

mutual
def psDepth : PermissionSet → Nat
  | .mk _ _ m => cmDepth m + 1
def cmDepth : ChildMap → Nat
  | .unalloc => 0
  | .empty => 0
  | .cons _ c rest => max (psDepth c) (cmDepth rest) + 1
end

theorem psDepth_eq (p : PermissionSet) : psDepth p = cmDepth p.children + 1 := by
  cases p <;> rfl

theorem lookup_psDepth_lt : ∀ (m : ChildMap) (i : Nat) (c : PermissionSet),
    childMapLookup m i = some c → psDepth c < cmDepth m
  | .unalloc, _, _, h => by simp [childMapLookup] at h
  | .empty, _, _, h => by simp [childMapLookup] at h
  | .cons j d rest, i, c, h => by
      simp only [childMapLookup] at h
      split at h
      · cases h
        simp only [cmDepth]
        omega
      · have := lookup_psDepth_lt rest i c h
        simp only [cmDepth]
        omega

theorem lookup_children_psDepth_lt {p c : PermissionSet} {i : Nat}
    (h : childMapLookup p.children i = some c) : psDepth c < psDepth p := by
  have h1 := lookup_psDepth_lt _ _ _ h
  rw [psDepth_eq p]
  omega

-- ### Union and InPlaceIntersection (first revision)

mutual
/-- `Union`: for every set bit `i` of `other`, set it in the receiver and, if
`other` has a child at `i`, recursively union the receiver's child at `i`
(created on demand by `Child`) with it; finally OR the raw bit vectors. -/
def PermissionSet.Union (p other : PermissionSet) : PermissionSet :=
  let p1 := (other.bits.sortedElems).foldl (unionStep other) p
  withBits p1 (p1.bits.inPlaceUnion other.bits)
termination_by (psDepth other, 1)
/-- One iteration of the `Union` loop body at bit `i`. -/
def unionStep (other acc : PermissionSet) (i : Nat) : PermissionSet :=
  let acc1 := acc.Set i
  match _h : childMapLookup other.children i with
  | some child =>
      setChild (acc1.Child i).2 i (PermissionSet.Union (acc1.Child i).1 child)
  | none => acc1
termination_by (psDepth other, 0)
decreasing_by
  exact Prod.Lex.left _ _ (lookup_children_psDepth_lt _h)
end

mutual
/-- `InPlaceIntersection` (first revision): for every set bit `i` of `other`
that is also set in the receiver, recursively intersect the receiver's child
at `i` (created on demand) with `other`'s child there if one exists; finally
AND the raw bit vectors. -/
def PermissionSet.InPlaceIntersection (p other : PermissionSet) : PermissionSet :=
  let p1 := (other.bits.sortedElems).foldl (interStep other) p
  withBits p1 (p1.bits.inPlaceIntersection other.bits)
termination_by (psDepth other, 1)
/-- One iteration of the `InPlaceIntersection` loop body at bit `i`. -/
def interStep (other acc : PermissionSet) (i : Nat) : PermissionSet :=
  if acc.Has i then
    match _h : childMapLookup other.children i with
    | some child =>
        setChild (acc.Child i).2 i
          (PermissionSet.InPlaceIntersection (acc.Child i).1 child)
    | none => acc
  else acc
termination_by (psDepth other, 0)
decreasing_by
  exact Prod.Lex.left _ _ (lookup_children_psDepth_lt _h)
end

-- ### Bit-level behaviour of the pre-pass loops

theorem boolEqOfIff {x y : Bool} (h : x = true ↔ y = true) : x = y := by
  cases x <;> cases y <;> simp_all

theorem foldl_bits_set_of (f : PermissionSet → Nat → PermissionSet)
    (hf : ∀ a i, (f a i).bits = a.bits.set i) :
    ∀ (l : List Nat) (acc : PermissionSet),
      (l.foldl f acc).bits = l.foldl BitSet.set acc.bits := by
  intro l
  induction l with
  | nil => intro acc; rfl
  | cons a t ih =>
      intro acc
      simp only [List.foldl_cons, ih, hf]

theorem foldl_bits_id_of (f : PermissionSet → Nat → PermissionSet)
    (hf : ∀ a i, (f a i).bits = a.bits) :
    ∀ (l : List Nat) (acc : PermissionSet), (l.foldl f acc).bits = acc.bits := by
  intro l
  induction l with
  | nil => intro acc; rfl
  | cons a t ih =>
      intro acc
      simp only [List.foldl_cons, ih, hf]

theorem union_step_bits (other acc : PermissionSet) (i : Nat) :
    (unionStep other acc i).bits = acc.bits.set i := by
  rw [unionStep]
  split
  · rw [setChild_bits, Child_snd_bits, pset_bits]
  · rw [pset_bits]

theorem inter_step_bits (other acc : PermissionSet) (i : Nat) :
    (interStep other acc i).bits = acc.bits := by
  rw [interStep]
  split
  · split
    · rw [setChild_bits, Child_snd_bits]
    · rfl
  · rfl

-- ### Characterising the bit-vector fold

theorem foldl_set_mem :
    ∀ (l : List Nat) (bs : BitSet) (i : Nat),
      i ∈ (l.foldl BitSet.set bs).elems ↔ i ∈ bs.elems ∨ i ∈ l := by
  intro l
  induction l with
  | nil => intro bs i; simp
  | cons a t ih =>
      intro bs i
      simp only [List.foldl_cons, ih, BitSet.set, Finset.mem_insert, List.mem_cons]
      tauto

theorem foldl_set_length_le :
    ∀ (l : List Nat) (bs : BitSet), bs.length ≤ (l.foldl BitSet.set bs).length := by
  intro l
  induction l with
  | nil => intro bs; exact le_rfl
  | cons a t ih =>
      intro bs
      have h2 := ih (bs.set a)
      simp only [BitSet.set] at h2
      calc bs.length ≤ max bs.length (a + 1) := le_max_left _ _
        _ ≤ _ := h2

theorem foldl_set_length_gt :
    ∀ (l : List Nat) (bs : BitSet) (i : Nat), i ∈ l →
      i < (l.foldl BitSet.set bs).length := by
  intro l
  induction l with
  | nil => intro bs i h; cases h
  | cons a t ih =>
      intro bs i h
      simp only [List.foldl_cons]
      rcases List.mem_cons.mp h with h | h
      · have h2 := foldl_set_length_le t (bs.set a)
        have h3 : (bs.set a).length = max bs.length (a + 1) := rfl
        omega
      · exact ih _ _ h

theorem mem_sortedElems (b : BitSet) (i : Nat) :
    i ∈ b.sortedElems ↔ i ∈ b.elems := by
  simp [BitSet.sortedElems, Finset.mem_sort]

/-- Root-level behaviour of `Union`: the bit set after `a.Union(b)` is, via
`Has`, the union of the two originals. -/
theorem union_has (a b : PermissionSet) (ha : a.bits.Wf) (hb : b.bits.Wf)
    (i : Nat) : (a.Union b).Has i = (a.Has i || b.Has i) := by
  rw [PermissionSet.Union]
  simp only [PermissionSet.Has, withBits_bits]
  rw [foldl_bits_set_of _ (union_step_bits b)]
  apply boolEqOfIff
  simp only [BitSet.Test, BitSet.inPlaceUnion, Bool.and_eq_true, Bool.or_eq_true,
    decide_eq_true_eq, Finset.mem_union, foldl_set_mem, mem_sortedElems]
  constructor
  · rintro ⟨hlt, hmem⟩
    rcases hmem with (hmem | hmem) | hmem
    · exact Or.inl ⟨ha _ hmem, hmem⟩
    · exact Or.inr ⟨hb _ hmem, hmem⟩
    · exact Or.inr ⟨hb _ hmem, hmem⟩
  · rintro (⟨hlt, hmem⟩ | ⟨hlt, hmem⟩)
    · have h1 := foldl_set_length_le (b.bits.sortedElems) a.bits
      exact ⟨by omega, Or.inl (Or.inl hmem)⟩
    · have h1 := foldl_set_length_gt (b.bits.sortedElems) a.bits i
        ((mem_sortedElems b.bits i).mpr hmem)
      exact ⟨by omega, Or.inr hmem⟩

/-- Root-level behaviour of `InPlaceIntersection`: the bit set after
`a.InPlaceIntersection(b)` is, via `Has`, the intersection of the originals. -/
theorem intersection_has (a b : PermissionSet) (ha : a.bits.Wf) (hb : b.bits.Wf)
    (i : Nat) : (a.InPlaceIntersection b).Has i = (a.Has i && b.Has i) := by
  rw [PermissionSet.InPlaceIntersection]
  simp only [PermissionSet.Has, withBits_bits]
  rw [foldl_bits_id_of _ (inter_step_bits b)]
  apply boolEqOfIff
  simp only [BitSet.Test, BitSet.inPlaceIntersection, Bool.and_eq_true,
    decide_eq_true_eq, Finset.mem_inter]
  constructor
  · rintro ⟨hlt, hmem1, hmem2⟩
    exact ⟨⟨ha _ hmem1, hmem1⟩, ⟨hb _ hmem2, hmem2⟩⟩
  · rintro ⟨⟨hlt1, hmem1⟩, ⟨hlt2, hmem2⟩⟩
    exact ⟨by omega, hmem1, hmem2⟩

/-- C4: intersection never adds bits — after `a.InPlaceIntersection(b)` a bit
is set exactly when it was set in both operands, so a surviving bit was set
in `a` (and in `b`) before the call. -/
theorem intersection_only_removes (a b : PermissionSet)
    (ha : a.bits.Wf) (hb : b.bits.Wf) (i : Nat) :
    (a.InPlaceIntersection b).Has i = (a.Has i && b.Has i) ∧
      ((a.InPlaceIntersection b).Has i = true →
        a.Has i = true ∧ b.Has i = true) := by
  refine ⟨intersection_has a b ha hb i, fun h => ?_⟩
  rw [intersection_has a b ha hb i] at h
  exact ⟨(Bool.and_eq_true _ _).mp h |>.1, (Bool.and_eq_true _ _).mp h |>.2⟩

/-- C4 witness at two concrete singleton sets. -/
theorem intersection_only_removes_witness :
    (PermissionSet.mk 0 ⟨2, {1}⟩ ChildMap.unalloc).bits.Wf ∧
      (PermissionSet.mk 1 ⟨3, {1, 2}⟩ ChildMap.unalloc).bits.Wf ∧
      (((PermissionSet.mk 0 ⟨2, {1}⟩ ChildMap.unalloc).InPlaceIntersection
          (PermissionSet.mk 1 ⟨3, {1, 2}⟩ ChildMap.unalloc)).Has 1 =
        ((PermissionSet.mk 0 ⟨2, {1}⟩ ChildMap.unalloc).Has 1 &&
          (PermissionSet.mk 1 ⟨3, {1, 2}⟩ ChildMap.unalloc).Has 1)) :=
  ⟨by decide, by decide,
    (intersection_only_removes _ _ (by decide) (by decide) 1).1⟩

/-- C5: union is, at the level of `Has`, the OR of the operands' bit sets; it
is commutative in its observable result and idempotent. -/
theorem union_commutative_idempotent (a b : PermissionSet)
    (ha : a.bits.Wf) (hb : b.bits.Wf) (i : Nat) :
    (a.Union b).Has i = (a.Has i || b.Has i) ∧
      (a.Union b).Has i = (b.Union a).Has i ∧
      (a.Union a).Has i = a.Has i := by
  refine ⟨union_has a b ha hb i, ?_, ?_⟩
  · rw [union_has a b ha hb i, union_has b a hb ha i, Bool.or_comm]
  · rw [union_has a a ha ha i, Bool.or_self]

/-- C5 witness at two concrete singleton sets. -/
theorem union_commutative_idempotent_witness :
    (PermissionSet.mk 0 ⟨2, {1}⟩ ChildMap.unalloc).bits.Wf ∧
      (PermissionSet.mk 1 ⟨1, {0}⟩ ChildMap.unalloc).bits.Wf ∧
      (((PermissionSet.mk 0 ⟨2, {1}⟩ ChildMap.unalloc).Union
          (PermissionSet.mk 1 ⟨1, {0}⟩ ChildMap.unalloc)).Has 0 =
        ((PermissionSet.mk 0 ⟨2, {1}⟩ ChildMap.unalloc).Has 0 ||
          (PermissionSet.mk 1 ⟨1, {0}⟩ ChildMap.unalloc).Has 0)) :=
  ⟨by decide, by decide,
    (union_commutative_idempotent _ _ (by decide) (by decide) 0).1⟩

-- ### HasMultiple (batch query)

/-- The inner write-back loop `for i, idx := range v { values[i] = set.Has(idx) }`:
it writes at positions `0 .. len(v)-1`, overwriting the root-bit indicator at
position 0. -/
def writeVals (child : PermissionSet) : List Bool → Nat → List Nat → List Bool
  | vs, _, [] => vs
  | vs, i, idx :: rest => writeVals child (vs.set i (child.Has idx)) (i + 1) rest

/-- Processing of one `k: v` entry of a `HasMultiple` batch.  Returns the
boolean vector stored under `k` together with the updated receiver (`Child`
may materialize a child). -/
def hasMultipleEntry (p : PermissionSet) (k : Nat) (v : List Nat) :
    List Bool × PermissionSet :=
  if p.Has k then
    if (p.Child k).1.Len > 0 then
      (writeVals (p.Child k).1 ((List.replicate (max 1 v.length) false).set 0 true) 0 v,
        (p.Child k).2)
    else ((List.replicate (max 1 v.length) false).set 0 true, (p.Child k).2)
  else (List.replicate (max 1 v.length) false, p)

/-- Go map assignment `results[k] = values` on the results map, linearized as
an association list. -/
def alistSet : List (Nat × List Bool) → Nat → List Bool → List (Nat × List Bool)
  | [], k, x => [(k, x)]
  | (j, y) :: rest, k, x =>
      if k = j then (j, x) :: rest else (j, y) :: alistSet rest k x

/-- One step of the inner `for k, v := range sets[set_key]` loop. -/
def hmStep (acc : List (Nat × List Bool) × PermissionSet) (kv : Nat × List Nat) :
    List (Nat × List Bool) × PermissionSet :=
  let r := hasMultipleEntry acc.2 kv.1 kv.2
  (alistSet acc.1 kv.1 r.1, r.2)

/-- One step of the outer `for set_key := range sets` loop (one batch). -/
def hmBatch (acc : List (Nat × List Bool) × PermissionSet)
    (batch : List (Nat × List Nat)) : List (Nat × List Bool) × PermissionSet :=
  batch.foldl hmStep acc

/-- `HasMultiple`: checks each requested top-level bit and up to one child
group per key.  The receiver is threaded because `Child` can allocate
children; the Go method's `map[uint][]uint` batches are linearized as
association lists. -/
def PermissionSet.HasMultiple (p : PermissionSet)
    (sets : List (List (Nat × List Nat))) :
    List (Nat × List Bool) × PermissionSet :=
  sets.foldl hmBatch ([], p)

-- ### Children-map bookkeeping of Child and HasMultiple

theorem lookup_allocMap (m : ChildMap) (k : Nat) :
    childMapLookup (allocMap m) k = childMapLookup m k := by
  cases m <;> rfl

theorem lookup_assign : ∀ (m : ChildMap) (q k : Nat) (c : PermissionSet),
    childMapLookup (childMapAssign m q c) k =
      if k = q then some c else childMapLookup m k
  | .unalloc, q, k, c => by simp [childMapAssign, childMapLookup]
  | .empty, q, k, c => by simp [childMapAssign, childMapLookup]
  | .cons j d rest, q, k, c => by
      by_cases hqj : q = j
      · subst hqj
        by_cases hkq : k = q
        · subst hkq
          simp [childMapAssign, childMapLookup]
        · simp [childMapAssign, childMapLookup, hkq]
      · by_cases hkj : k = j
        · subst hkj
          have hkq : ¬k = q := fun h => hqj h.symm
          simp [childMapAssign, childMapLookup, hqj, hkq]
        · simp [childMapAssign, childMapLookup, hqj, hkj,
            lookup_assign rest q k c]

theorem Child_snd_children_lookup (p : PermissionSet) (q k : Nat) :
    (childMapLookup (p.Child q).2.children k).isSome =
      ((childMapLookup p.children k).isSome || decide (k = q)) := by
  cases p with
  | mk id b m =>
      simp only [PermissionSet.Child]
      split
      · next c hL =>
          rw [lookup_allocMap] at hL
          simp only [PermissionSet.children, lookup_allocMap]
          by_cases hkq : k = q
          · subst hkq
            simp [hL]
          · simp [hkq]
      · next hL =>
          simp only [PermissionSet.children]
          rw [lookup_assign]
          by_cases hkq : k = q
          · simp [hkq]
          · simp [hkq, lookup_allocMap]

theorem hasMultipleEntry_bits (p : PermissionSet) (k : Nat) (v : List Nat) :
    (hasMultipleEntry p k v).2.bits = p.bits := by
  simp only [hasMultipleEntry]
  split
  · split
    · exact Child_snd_bits p k
    · exact Child_snd_bits p k
  · rfl

theorem hasMultipleEntry_children_lookup (p : PermissionSet) (q : Nat)
    (v : List Nat) (k : Nat) :
    (childMapLookup (hasMultipleEntry p q v).2.children k).isSome =
      ((childMapLookup p.children k).isSome || (p.Has q && decide (k = q))) := by
  simp only [hasMultipleEntry]
  split
  · next hH =>
      have h2 := Child_snd_children_lookup p q k
      split
      · simp [h2, hH]
      · simp [h2, hH]
  · next hH =>
      rw [Bool.not_eq_true] at hH
      simp [hH]

theorem hmStep_bits (acc : List (Nat × List Bool) × PermissionSet)
    (kv : Nat × List Nat) : (hmStep acc kv).2.bits = acc.2.bits :=
  hasMultipleEntry_bits acc.2 kv.1 kv.2

theorem hmStep_Has (acc : List (Nat × List Bool) × PermissionSet)
    (kv : Nat × List Nat) (k : Nat) : (hmStep acc kv).2.Has k = acc.2.Has k := by
  simp only [PermissionSet.Has, hmStep_bits]

theorem hmBatch_children_lookup :
    ∀ (batch : List (Nat × List Nat)) (acc : List (Nat × List Bool) × PermissionSet)
      (k : Nat),
      (childMapLookup (hmBatch acc batch).2.children k).isSome =
        ((childMapLookup acc.2.children k).isSome ||
          (acc.2.Has k && decide (∃ x ∈ batch, x.1 = k))) := by
  intro batch
  induction batch with
  | nil => intro acc k; simp [hmBatch]
  | cons qv rest ih =>
      intro acc k
      have hstep : (childMapLookup (hmStep acc qv).2.children k).isSome =
          ((childMapLookup acc.2.children k).isSome ||
            (acc.2.Has qv.1 && decide (k = qv.1))) :=
        hasMultipleEntry_children_lookup acc.2 qv.1 qv.2 k
      have hbatch : hmBatch acc (qv :: rest) = hmBatch (hmStep acc qv) rest := rfl
      rw [hbatch, ih, hstep, hmStep_Has]
      apply boolEqOfIff
      simp only [Bool.or_eq_true, Bool.and_eq_true, decide_eq_true_eq,
        List.mem_cons]
      constructor
      · rintro ((hA | ⟨hH, hk⟩) | ⟨hH, x, hx, hxk⟩)
        · exact Or.inl hA
        · exact Or.inr ⟨by rw [hk]; exact hH, qv, Or.inl rfl, hk.symm⟩
        · exact Or.inr ⟨hH, x, Or.inr hx, hxk⟩
      · rintro (hA | ⟨hH, x, (hx | hx), hxk⟩)
        · exact Or.inl (Or.inl hA)
        · subst hx
          exact Or.inl (Or.inr ⟨by rw [← hxk] at hH; exact hH, hxk.symm⟩)
        · exact Or.inr ⟨hH, x, hx, hxk⟩

theorem hmBatch_bits :
    ∀ (batch : List (Nat × List Nat)) (acc : List (Nat × List Bool) × PermissionSet),
      (hmBatch acc batch).2.bits = acc.2.bits := by
  intro batch
  induction batch with
  | nil => intro acc; rfl
  | cons qv rest ih =>
      intro acc
      have hbatch : hmBatch acc (qv :: rest) = hmBatch (hmStep acc qv) rest := rfl
      rw [hbatch, ih, hmStep_bits]

theorem foldl_hmBatch_children_lookup :
    ∀ (sets : List (List (Nat × List Nat)))
      (acc : List (Nat × List Bool) × PermissionSet) (k : Nat),
      (childMapLookup (sets.foldl hmBatch acc).2.children k).isSome =
        ((childMapLookup acc.2.children k).isSome ||
          (acc.2.Has k && decide (∃ batch ∈ sets, ∃ x ∈ batch, x.1 = k))) := by
  intro sets
  induction sets with
  | nil => intro acc k; simp
  | cons b rest ih =>
      intro acc k
      rw [List.foldl_cons, ih, hmBatch_children_lookup]
      have hHas : (hmBatch acc b).2.Has k = acc.2.Has k := by
        simp only [PermissionSet.Has, hmBatch_bits]
      rw [hHas]
      apply boolEqOfIff
      simp only [Bool.or_eq_true, Bool.and_eq_true, decide_eq_true_eq,
        List.mem_cons]
      constructor
      · rintro ((hA | ⟨hH, hv⟩) | ⟨hH, batch, hb, hv⟩)
        · exact Or.inl hA
        · exact Or.inr ⟨hH, b, Or.inl rfl, hv⟩
        · exact Or.inr ⟨hH, batch, Or.inr hb, hv⟩
      · rintro (hA | ⟨hH, batch, (hb | hb), hv⟩)
        · exact Or.inl (Or.inl hA)
        · subst hb
          exact Or.inl (Or.inr ⟨hH, hv⟩)
        · exact Or.inr ⟨hH, batch, hb, hv⟩

/-- C10: `HasMultiple` materializes a child entry at every queried key whose
root bit is set (via its `Child` call), and touches no other entries of the
children map: after the call a child exists at `k` exactly when one existed
before or `k` was queried with its root bit set. -/
theorem hasMultiple_materializes_children (p : PermissionSet)
    (sets : List (List (Nat × List Nat))) (k : Nat) :
    (childMapLookup (p.HasMultiple sets).2.children k).isSome =
      ((childMapLookup p.children k).isSome ||
        (p.Has k && decide (∃ batch ∈ sets, ∃ x ∈ batch, x.1 = k))) :=
  foldl_hmBatch_children_lookup sets ([], p) k

-- ### The value vectors computed by HasMultiple

theorem take_succ_set (x : Bool) :
    ∀ (l : List Bool) (i : Nat), i < l.length →
      (l.set i x).take (i + 1) = l.take i ++ [x]
  | [], i, h => by simp at h
  | a :: t, 0, _ => by simp
  | a :: t, i + 1, h => by
      simp only [List.length_cons, Nat.add_lt_add_iff_right] at h
      simp only [List.set_cons_succ, List.take_succ_cons,
        take_succ_set x t i h, List.cons_append]

theorem writeVals_eq (child : PermissionSet) :
    ∀ (v : List Nat) (vs : List Bool) (i : Nat), vs.length = i + v.length →
      writeVals child vs i v = vs.take i ++ v.map (fun j => child.Has j)
  | [], vs, i, h => by
      simp only [List.length_nil, Nat.add_zero] at h
      simp [writeVals, ← h]
  | a :: rest, vs, i, h => by
      have hlen : (vs.set i (child.Has a)).length = (i + 1) + rest.length := by
        simp only [List.length_set]
        simp only [List.length_cons] at h
        omega
      have hi : i < vs.length := by
        simp only [List.length_cons] at h
        omega
      simp only [writeVals, writeVals_eq child rest _ _ hlen,
        take_succ_set _ _ _ hi, List.map_cons, List.append_assoc,
        List.singleton_append]

theorem replicate_set_zero (n : Nat) :
    (List.replicate (max 1 n) false).set 0 true =
      true :: List.replicate (max 1 n - 1) false := by
  have h : max 1 n = (max 1 n - 1) + 1 := by omega
  rw [h, List.replicate_succ]
  rfl

/-- C6 (amended, general law): the vector `HasMultiple` stores for a single
queried key `k` with child indices `v`.  Its length is `max 1 (len v)`.  When
bit `k` is unset it is all-false; when bit `k` is set but the child at `k` is
empty (or `v` is empty) it is `true` followed by `false`s; when bit `k` is
set and the child at `k` has positive length, the loop `values[i] = set.Has(idx)`
overwrites the whole vector — including the root-bit indicator at position
0 — with the child's bits at `v`'s indices. -/
theorem hasMultiple_single_spec (p : PermissionSet) (k : Nat) (v : List Nat) :
    (p.HasMultiple [[(k, v)]]).1 =
      [(k,
        if p.Has k then
          if 0 < (p.Child k).1.Len ∧ v ≠ [] then
            v.map (fun j => (p.Child k).1.Has j)
          else true :: List.replicate (max 1 v.length - 1) false
        else List.replicate (max 1 v.length) false)] := by
  have hmain : (p.HasMultiple [[(k, v)]]).1 = [(k, (hasMultipleEntry p k v).1)] := rfl
  rw [hmain]
  congr 1
  congr 1
  simp only [hasMultipleEntry]
  by_cases hH : p.Has k
  · rw [if_pos hH, if_pos hH]
    by_cases hL : (p.Child k).1.Len > 0
    · rw [if_pos hL]
      cases v with
      | nil =>
          have hne : ¬(0 < (p.Child k).1.Len ∧ ([] : List Nat) ≠ []) := by simp
          rw [if_neg hne, replicate_set_zero]
          rfl
      | cons a rest =>
          have hcond : 0 < (p.Child k).1.Len ∧ (a :: rest : List Nat) ≠ [] :=
            ⟨hL, by simp⟩
          rw [if_pos hcond]
          have hlen : ((List.replicate (max 1 (a :: rest).length) false).set 0 true).length
              = 0 + (a :: rest).length := by
            simp only [List.length_set, List.length_replicate, List.length_cons]
            omega
          show writeVals (p.Child k).1
              ((List.replicate (max 1 (a :: rest).length) false).set 0 true) 0 (a :: rest) =
            (a :: rest).map (fun j => (p.Child k).1.Has j)
          rw [writeVals_eq _ _ _ _ hlen]
          simp
    · rw [if_neg hL]
      have hne : ¬(0 < (p.Child k).1.Len ∧ v ≠ []) := fun h => hL h.1
      rw [if_neg hne]
      show (List.replicate (max 1 v.length) false).set 0 true =
        true :: List.replicate (max 1 v.length - 1) false
      exact replicate_set_zero v.length
  · rw [if_neg hH, if_neg hH]

/-- The concrete tree of the C6 scenario: bit 5 set at the root, a child at 5
whose bits are exactly {1}. -/
def hmTree : PermissionSet :=
  .mk 0 ⟨6, {5}⟩ (ChildMap.cons 5 (.mk 0 ⟨2, {1}⟩ ChildMap.unalloc) ChildMap.empty)

/-- C6 counterexample: on the claim's own scenario the code returns
`{5: [true, false]}` — length `max(1, len(v)) = 2`, with position 0
overwritten by `child.Has(1)` — not the claimed `{5: [true, true, false]}`. -/
theorem hasMultiple_scenario_counterexample :
    (hmTree.HasMultiple [[(5, [1, 2])]]).1 = [(5, [true, false])] ∧
      (hmTree.HasMultiple [[(5, [1, 2])]]).1 ≠ [(5, [true, true, false])] := by
  refine ⟨by decide, by decide⟩

-- ### Binary codec

/-- Error values of the decode paths.  `bufTooSmall` and `bufOverflow` are
the package's `ErrBufTooSmall` / `ErrBufOveflow`; `panicRange` models a Go
runtime panic from slicing out of range; `eof` models the io read errors the
bitset's own `UnmarshalBinary` returns on short input. -/
inductive GoErr : Type where
  | bufTooSmall
  | bufOverflow
  | panicRange
  | eof
deriving DecidableEq

/-- `binary.PutUvarint` byte output: low 7 bits per byte with a continuation
bit, least significant group first.  The Go loop runs `while x >= 0x80`; the
explicit bound of 10 iterations is the loop's maximum for any `uint64`
(`binary.MaxVarintLen64`), so for every `x < 2 ^ 64` this equals the Go
output byte for byte. -/
def putUvarintAux : Nat → Nat → List Nat
  | 0, x => [x % 128]
  | fuel + 1, x =>
      if x < 128 then [x] else (x % 128 + 128) :: putUvarintAux fuel (x / 128)

def putUvarint (x : Nat) : List Nat :=
  putUvarintAux 10 x

/-- The loop of `binary.Uvarint`: accumulator `x`, shift `s`, byte index `i`.
Returns the decoded value and the read count, negative on overflow, zero when
the buffer ended inside a varint.  `uint64(b) << s` wraps, hence the explicit
`% 2 ^ 64`. -/
def uvarintLoop : List Nat → Nat → Nat → Nat → Nat × Int
  | [], _, _, _ => (0, 0)
  | b :: rest, x, s, i =>
      if i = 10 then (0, -(Int.ofNat i + 1))
      else if b < 128 then
        if i = 9 ∧ b > 1 then (0, -(Int.ofNat i + 1))
        else ((x ||| (b <<< s)) % 2 ^ 64, Int.ofNat (i + 1))
      else uvarintLoop rest ((x ||| ((b % 128) <<< s)) % 2 ^ 64) (s + 7) (i + 1)

/-- `binary.Uvarint`. -/
def uvarint (buf : List Nat) : Nat × Int :=
  uvarintLoop buf 0 0 0

/-- A `uint64` written big-endian in 8 bytes (`binary.Write` with
`binary.BigEndian`, the byte order the bitset library uses). -/
def beBytes8 (x : Nat) : List Nat :=
  [x / 2 ^ 56 % 256, x / 2 ^ 48 % 256, x / 2 ^ 40 % 256, x / 2 ^ 32 % 256,
    x / 2 ^ 24 % 256, x / 2 ^ 16 % 256, x / 2 ^ 8 % 256, x % 256]

/-- Big-endian read of 8 bytes. -/
def beRead8 (l : List Nat) : Nat :=
  l.foldl (fun a b => a * 256 + b % 256) 0

/-- `wordsNeeded` of the bitset library: `(i + 63) >> 6`. -/
def wordsNeeded (l : Nat) : Nat :=
  (l + 63) / 64

/-- Word `j` of the bitset's backing storage, recomputed from the bit set. -/
def bitsetWord (s : Finset Nat) (j : Nat) : Nat :=
  (List.range 64).foldl (fun a k => if 64 * j + k ∈ s then a + 2 ^ k else a) 0

/-- `bitset.BitSet.MarshalBinary`: the length as a big-endian `uint64`
followed by each backing word big-endian. -/
def bitsetMarshalBinary (b : BitSet) : List Nat :=
  beBytes8 b.length ++
    (List.range (wordsNeeded b.length)).flatMap (fun j => beBytes8 (bitsetWord b.elems j))

/-- `bitset.BitSet.UnmarshalBinary`: read the length, then
`wordsNeeded(length)` words; short input fails with an io read error.  The
decoded `elems` is the word content. -/
def bitsetUnmarshalBinary (data : List Nat) : Except GoErr BitSet :=
  if data.length < 8 then .error .eof
  else
    let len := beRead8 (data.take 8)
    if data.length < 8 + 8 * wordsNeeded len then .error .eof
    else
      .ok ⟨len,
        (Finset.range (64 * wordsNeeded len)).filter
          (fun i => beRead8 ((data.drop (8 + 8 * (i / 64))).take 8) / 2 ^ (i % 64) % 2 = 1)⟩

/-- Overwrite `buf` starting at `off` with `bytes` (Go `copy` semantics into
`buf[off:]`; the callers below always stay within bounds). -/
def writeAt (buf : List Nat) (off : Nat) (bytes : List Nat) : List Nat :=
  buf.take off ++ bytes.take (buf.length - off) ++ buf.drop (off + bytes.length)

mutual
/-- `MarshalBinary`: `[ID][SIZE][TOTAL_SIZE][DATA]` in a 24-byte header of
three 8-byte varint slots (zero padded), followed by the bit-vector payload
and one `[CHILD_INDEX][CHILD_FRAME]` block per child.  The total size is
written into offset 16 after the children have been appended, exactly as the
source does. -/
def PermissionSet.MarshalBinary : PermissionSet → List Nat
  | .mk id bits children =>
      let bytes := bitsetMarshalBinary bits
      let size := bytes.length
      let data0 := List.replicate (24 + size) 0
      let data1 := writeAt data0 0 (putUvarint id)
      let data2 := writeAt data1 8 (putUvarint size)
      let data3 := writeAt data2 24 bytes
      let r := marshalChildrenBin children size
      writeAt (data3 ++ r.1) 16 (putUvarint (r.2 + 24))
/-- The `for i, v := range p.children` append loop of `MarshalBinary`:
returns the appended child blocks and the accumulated `size`. -/
def marshalChildrenBin : ChildMap → Nat → List Nat × Nat
  | .unalloc, size => ([], size)
  | .empty, size => ([], size)
  | .cons i c rest, size =>
      let b := PermissionSet.MarshalBinary c
      let header := writeAt (List.replicate 8 0) 0 (putUvarint i)
      let r := marshalChildrenBin rest (size + 8 + b.length)
      (header ++ b ++ r.1, r.2)
end

mutual
/-- `UnmarshalBinary`: an empty input is a no-op; otherwise read the ID
varint from `data[:7]`, the payload size varint from `data[8:15]`, decode
`data[24 : 24+size]` into the bit vector, and, when bytes remain, decode
`[CHILD_INDEX][CHILD_FRAME]` blocks into a freshly allocated children map.
Out-of-range slice expressions are the `panicRange` outcome.  Each varint
read recomputes `uvarint` on its 7-byte window (the Go code binds value and
count once; re-evaluating the pure function is equivalent). -/
def PermissionSet.UnmarshalBinary (p : PermissionSet) (data : List Nat) :
    Except GoErr PermissionSet :=
  if data.length = 0 then .ok p
  else if data.length < 7 then .error .panicRange
  else if (uvarint (data.take 7)).2 = 0 then .error .bufTooSmall
  else if (uvarint (data.take 7)).2 < 0 then .error .bufOverflow
  else if data.length < 15 then .error .panicRange
  else if (uvarint ((data.drop 8).take 7)).2 = 0 then .error .bufTooSmall
  else if (uvarint ((data.drop 8).take 7)).2 < 0 then .error .bufOverflow
  else
    if _hsz : data.length < 24 + (uvarint ((data.drop 8).take 7)).1 then
      .error .panicRange
    else
      match bitsetUnmarshalBinary
          ((data.drop 24).take (uvarint ((data.drop 8).take 7)).1) with
      | .error e => .error e
      | .ok bs =>
          if data.length > 24 + (uvarint ((data.drop 8).take 7)).1 then
            match unmarshalChildrenBin data
                (24 + (uvarint ((data.drop 8).take 7)).1) ChildMap.empty with
            | .error e => .error e
            | .ok m => .ok (.mk (uvarint (data.take 7)).1 bs m)
          else .ok (.mk (uvarint (data.take 7)).1 bs p.children)
termination_by (data.length, 1, 0)
/-- The child-decoding loop: while `maxLen > offset`, read the child index
varint from `data[offset : offset+7]` and the child frame's total size from
`data[offset+24 : offset+31]` (the `TOTAL_SIZE` slot of the nested frame),
recursively decode `data[offset+8 : offset+8+childSize]` into a fresh set,
and store it. -/
def unmarshalChildrenBin (data : List Nat) (offset : Nat) (acc : ChildMap) :
    Except GoErr ChildMap :=
  if _hoff : data.length > offset then
    if data.length < offset + 7 then .error .panicRange
    else if (uvarint ((data.drop offset).take 7)).2 = 0 then .error .bufTooSmall
    else if (uvarint ((data.drop offset).take 7)).2 < 0 then .error .bufOverflow
    else if data.length < offset + 31 then .error .panicRange
    else if (uvarint ((data.drop (offset + 24)).take 7)).2 = 0 then
      .error .bufTooSmall
    else if (uvarint ((data.drop (offset + 24)).take 7)).2 < 0 then
      .error .bufOverflow
    else
      if _hcs : data.length < offset + 8 + (uvarint ((data.drop (offset + 24)).take 7)).1 then
        .error .panicRange
      else
        match emptyPS.UnmarshalBinary
            ((data.drop (offset + 8)).take (uvarint ((data.drop (offset + 24)).take 7)).1) with
        | .error e => .error e
        | .ok child =>
            unmarshalChildrenBin data
              (offset + 8 + (uvarint ((data.drop (offset + 24)).take 7)).1)
              (childMapAssign acc (uvarint ((data.drop offset).take 7)).1 child)
  else .ok acc
termination_by (data.length, 0, data.length - offset)
decreasing_by
  · refine Prod.Lex.left _ _ ?_
    simp only [List.length_take, List.length_drop]
    omega
  · refine Prod.Lex.right _ ?_
    refine Prod.Lex.right _ ?_
    omega
end

/-- The C1 failing input: a childless set with an empty bit vector whose ID
is `2^49`, the smallest ID whose unsigned varint needs 8 bytes. -/
def binTree : PermissionSet :=
  .mk (2 ^ 49) ⟨0, ∅⟩ ChildMap.unalloc

/-- C1: the binary codec does not round-trip.  `MarshalBinary` writes the
8-byte varint of ID `2^49` into its 8-byte slot, but `UnmarshalBinary` reads
the ID back from only `data[:7]`, so the varint never terminates inside the
window and the decode fails with `ErrBufTooSmall` instead of reproducing the
tree. -/
theorem binary_roundtrip_large_id_fails :
    emptyPS.UnmarshalBinary binTree.MarshalBinary =
      Except.error GoErr.bufTooSmall := by
  have hm : binTree.MarshalBinary =
      [128, 128, 128, 128, 128, 128, 128, 1, 8, 0, 0, 0, 0, 0, 0, 0,
        32, 0, 0, 0, 0, 0, 0, 0, 0, 0, 0, 0, 0, 0, 0, 0] := by decide
  have hu : (uvarint [128, 128, 128, 128, 128, 128, 128]).2 = 0 := by decide
  rw [hm, PermissionSet.UnmarshalBinary]
  norm_num [hu]

/-- C8: `UnmarshalBinary` is not total over short inputs: a 1-byte input
(lengths 1 through 6 all behave alike) makes the very first slice expression
`data[:7]` fault — a Go runtime panic, not the `ErrBufTooSmall` return the
spec promises. -/
theorem unmarshal_short_input_panics :
    emptyPS.UnmarshalBinary [0] = Except.error GoErr.panicRange := by
  rw [PermissionSet.UnmarshalBinary]
  norm_num

/-- C9: a zero-length input decodes as a no-op: no error is returned and the
target set is completely unmodified. -/
theorem unmarshal_empty_input_noop (p : PermissionSet) :
    p.UnmarshalBinary [] = Except.ok p := by
  rw [PermissionSet.UnmarshalBinary]
  norm_num

-- ### Structured (JSON) codec

/-- The key string `strconv.Itoa(int(k))` for a `uint` child index `k`: the
cast to `int` (64-bit) wraps keys at and above `2^63` to negative values,
which `Itoa` prints with a leading minus sign. -/
def goItoaUintKey (k : Nat) : String :=
  if k < 2 ^ 63 then Nat.repr k
  else "-" ++ Nat.repr (2 ^ 64 - k)

/-- The key recovery `key, _ := strconv.ParseUint(k, 10, 64)`: on a syntax
error (any non-digit, e.g. a minus sign) `ParseUint` returns 0, on a range
error it returns `MaxUint64`; the caller discards the error either way. -/
def goParseUintKey (s : String) : Nat :=
  if s.isEmpty then 0
  else if s.toList.all (fun c => c.isDigit) then
    let v := s.toList.foldl (fun a c => a * 10 + (c.toNat - 48)) 0
    if v < 2 ^ 64 then v else 2 ^ 64 - 1
  else 0

/-- `uint64(intermediate["ID"].(float64))`: `json.Unmarshal` into an
`interface{}` parses the encoder's exact decimal rendering of the ID to the
nearest `float64` (round to nearest, ties to even, 53-bit significand); the
conversion back to `uint64` preserves every integral value below `2^64`. -/
def goFloat64RoundNat (n : Nat) : Nat :=
  if n ≤ 2 ^ 53 then n
  else
    let e := n.log2 - 52
    let q := n / 2 ^ e
    let r := n % 2 ^ e
    if r > 2 ^ (e - 1) ∨ (r = 2 ^ (e - 1) ∧ q % 2 = 1) then (q + 1) * 2 ^ e
    else q * 2 ^ e

mutual
/-- The shape of one marshalled `PermissionSet` JSON document: the number in
the `ID` field, the `bits` field (carried as the bitset it encodes, since the
bitset's own JSON codec — base64 of its binary form — round-trips exactly),
and the `children` field: absent when the Go map is `nil`, otherwise a map
from key string to an embedded child document (the Go code nests children as
JSON-encoded strings; the model carries their parsed form). -/
inductive JDoc : Type where
  | mk (idNum : Nat) (bitsDoc : BitSet) (children : JChildren)
/-- The `children` JSON field: `absent` (no field), `nil` (empty object) or
key/document entries. -/
inductive JChildren : Type where
  | absent
  | nil
  | cons (key : String) (doc : JDoc) (rest : JChildren)
end

mutual
/-- `MarshalJSON`: emits `ID` and `bits`, and a `children` object — with the
key rendered by `strconv.Itoa(int(k))` — only when the map is non-`nil`. -/
def PermissionSet.MarshalJSON : PermissionSet → JDoc
  | .mk id bits ChildMap.unalloc => JDoc.mk id bits JChildren.absent
  | .mk id bits ChildMap.empty => JDoc.mk id bits JChildren.nil
  | .mk id bits (ChildMap.cons i c rest) =>
      JDoc.mk id bits
        (JChildren.cons (goItoaUintKey i) c.MarshalJSON (marshalJSONEntries rest))
/-- The `for k, v := range p.children` loop of `MarshalJSON`. -/
def marshalJSONEntries : ChildMap → JChildren
  | ChildMap.unalloc => JChildren.nil
  | ChildMap.empty => JChildren.nil
  | ChildMap.cons i c rest =>
      JChildren.cons (goItoaUintKey i) c.MarshalJSON (marshalJSONEntries rest)
end

mutual
/-- `UnmarshalJSON` (first revision): reads the ID through `float64`, decodes
the bit vector, and — only when a `children` field exists — allocates the
children map and stores each recursively decoded child under
`ParseUint(key)`, discarding parse errors (a failed key therefore lands on
index 0). -/
def UnmarshalJSON : JDoc → PermissionSet
  | JDoc.mk idNum bitsDoc JChildren.absent =>
      PermissionSet.mk (goFloat64RoundNat idNum) bitsDoc ChildMap.unalloc
  | JDoc.mk idNum bitsDoc JChildren.nil =>
      PermissionSet.mk (goFloat64RoundNat idNum) bitsDoc ChildMap.empty
  | JDoc.mk idNum bitsDoc (JChildren.cons k d rest) =>
      PermissionSet.mk (goFloat64RoundNat idNum) bitsDoc
        (childMapAssign (unmarshalJSONEntries rest) (goParseUintKey k) (UnmarshalJSON d))
/-- The `for k, v := range childData` loop of `UnmarshalJSON`. -/
def unmarshalJSONEntries : JChildren → ChildMap
  | JChildren.absent => ChildMap.empty
  | JChildren.nil => ChildMap.empty
  | JChildren.cons k d rest =>
      childMapAssign (unmarshalJSONEntries rest) (goParseUintKey k) (UnmarshalJSON d)
end

/-- The C7 failing input: ID 1, empty bits, one (empty) child at index
`2^63`. -/
def jsonTree : PermissionSet :=
  .mk 1 ⟨0, ∅⟩ (ChildMap.cons (2 ^ 63) emptyPS ChildMap.empty)

/-- C7: the structured codec does not round-trip the child index set.  The
encoder renders the child key `2^63` through `int` as
`-9223372036854775808`; the decoder's `ParseUint` fails on it, the error is
discarded, and the child is stored at index 0. -/
theorem json_roundtrip_child_key_lost :
    childKeys (UnmarshalJSON jsonTree.MarshalJSON).children = [0] ∧
      childKeys jsonTree.children = [2 ^ 63] := by
  refine ⟨by decide, by decide⟩
